import Mathlib

/-!
Verification development for the `pi-camera-go` server core
(`server/storage/implementation.go`, `server/recorder/implementation.go`,
`server/server.go`).

Modelling conventions, used throughout:
* Go strings are modelled as `List Char`; `strings.Split` is `List.splitOn`,
  `strings.HasSuffix` is `List.isSuffixOf`, `strings.Replace(s, old, new, 1)`
  is `replaceFirst` below.
* Go `int` / `int64` / `time.Duration` (a nanosecond count) are modelled as
  `Int`; Go integer division truncates toward zero, which is `Int.tdiv`.
* A Go `time.Time` is modelled as the instant's nanosecond count since the
  Unix epoch (`Int`); `Time.Unix()` yields whole seconds, i.e. `Int.fdiv`
  by `10^9` (Go stores a seconds field, so flooring is exact), and
  `time.Unix(sec, 0)` is `sec * 10^9`; `t2.Sub(t1)` is `t2 - t1`.
* A Go map is modelled as an association list where insertion conses the new
  binding in front and `List.lookup` returns the most recent binding.
* Fallible operations return `Option`/a result-state pair; a Go runtime
  panic is modelled as `Option.none` of the whole call.
-/

namespace PiCameraGo

/-! ### Decimal formatting and parsing

`fmt.Sprintf("%d", n)` for a non-negative integer prints the base-10 digits
most significant first; `natToDigits` mirrors that. `strconv.Atoi` accepts an
optional sign followed by one or more decimal digits and rejects anything
else; `atoi` mirrors that (integer overflow is not modelled: the values in
play are far below 2^63). -/

/-- The character for one decimal digit (`'0' + d` in Go's formatter). -/
def digitChar (d : Nat) : Char :=
  match d with
  | 0 => '0' | 1 => '1' | 2 => '2' | 3 => '3' | 4 => '4'
  | 5 => '5' | 6 => '6' | 7 => '7' | 8 => '8' | _ => '9'

/-- Digit emission with an explicit recursion bound (`n` itself shrinks by a
factor of ten each step, so any bound above `n` is enough). -/
def natToDigitsGo (fuel : Nat) (n : Nat) : List Char :=
  match fuel with
  | 0 => []
  | fuel + 1 =>
    if n < 10 then [digitChar n]
    else natToDigitsGo fuel (n / 10) ++ [digitChar (n % 10)]

/-- Base-10 digits of a natural number, most significant first
(the output of `%d` for a non-negative value). -/
def natToDigits (n : Nat) : List Char := natToDigitsGo (n + 1) n

/-- `%d` output for a (possibly negative) integer. -/
def intToChars (i : Int) : List Char :=
  if i < 0 then '-' :: natToDigits i.natAbs else natToDigits i.natAbs

/-- Whether a character is a decimal digit. -/
def isDigitChar (c : Char) : Bool :=
  48 ≤ c.toNat && c.toNat ≤ 57

/-- Numeric value accumulated left to right over digit characters,
starting from `a`. -/
def digitsValAux (a : Nat) (l : List Char) : Nat :=
  l.foldl (fun acc c => acc * 10 + (c.toNat - 48)) a

/-- Numeric value of a digit string. -/
def digitsVal (l : List Char) : Nat := digitsValAux 0 l

/-- `strconv.Atoi`: optional sign, then one or more decimal digits. -/
def atoi (s : List Char) : Option Int :=
  match s with
  | [] => none
  | c :: rest =>
    if c = '-' then
      if rest ≠ [] ∧ rest.all isDigitChar then some (-(digitsVal rest : Int)) else none
    else if c = '+' then
      if rest ≠ [] ∧ rest.all isDigitChar then some (digitsVal rest : Int) else none
    else if (c :: rest).all isDigitChar then some (digitsVal (c :: rest) : Int)
    else none

/-! ### Segment data model (`server/storage`)

`Segment` and `SegmentID` are declared in the storage package's interface
file, which is not among the reviewed files; the shape below is reconstructed
from every use in `implementation.go` (`ID`, `Name`, `Time`, `Duration`
fields; `SegmentID` an integer type) and matches spec §3. -/

/-- One playable unit:
`ID : SegmentID` (an integer), `Name` the on-disk file name, `Time` the
creation instant (nanoseconds since epoch, see the `time.Time` convention),
`Duration` the playback duration in nanoseconds (`time.Duration`). -/
structure Segment where
  ID : Int
  Name : List Char
  Time : Int
  Duration : Int
  deriving Repr, DecidableEq

/-- `time.Time.Unix()`: whole seconds since the epoch. -/
def unixSeconds (t : Int) : Int := Int.fdiv t 1000000000

/-- `time.Unix(sec, 0)` as a nanosecond instant. -/
def timeUnix (sec : Int) : Int := sec * 1000000000

/-- The canonical segment file name built in `addSegment`:
`fmt.Sprintf("segment_%d_%d_%d.ts", segmentTime.Unix(), segmentDuration / time.Millisecond, segmentID)`. -/
def segmentFileName (tSec durMs id : Int) : List Char :=
  "segment_".toList ++ intToChars tSec ++ "_".toList ++ intToChars durMs
    ++ "_".toList ++ intToChars id ++ ".ts".toList

/-- `segmentFromFileName` (storage/implementation.go): split the name on `"."`,
take the first part, split it on `"_"`; require exactly four parts, the first
being `"segment"`; `Atoi` the remaining three as time (seconds), duration
(milliseconds) and id. `none` models the error return. -/
def segmentFromFileName (name : List Char) : Option Segment :=
  match (name.splitOn '.').headD [] |>.splitOn '_' with
  | [p0, p1, p2, p3] =>
    if p0 = "segment".toList then
      match atoi p1, atoi p2, atoi p3 with
      | some segmentTime, some segmentDuration, some segmentID =>
        some { ID := segmentID, Name := name, Time := timeUnix segmentTime,
               Duration := segmentDuration * 1000000 }
      | _, _, _ => none
    else none
  | _ => none

/-- The mutable state of `storageImpl`: the id-keyed index and the high-water
mark. (`segmentDir` and the never-enforced `segmentDirMaxSize` carry no
logic and are omitted.) -/
structure StorageState where
  segments : List (Int × Segment)
  lastSegmentID : Int
  deriving Repr, DecidableEq

/-- `loadSegments`: fold over the directory listing, indexing every name that
parses and tracking the maximum parsed id (0 if none parses). -/
def loadSegments (files : List (List Char)) : List (Int × Segment) × Int :=
  files.foldl
    (fun acc name =>
      match segmentFromFileName name with
      | some segment =>
        ((segment.ID, segment) :: acc.1,
         if segment.ID > acc.2 then segment.ID else acc.2)
      | none => acc)
    ([], 0)

/-- `New` (storage/implementation.go): build the store over a directory
listing. Note the source initializes the field as `lastSegmentID + 1`, one
past what `loadSegments` returned. -/
def storageNew (files : List (List Char)) : StorageState :=
  let loaded := loadSegments files
  { segments := loaded.1, lastSegmentID := loaded.2 + 1 }

/-- Body of the `for segmentID := lo; segmentID <= hi; segmentID++` collection
loop of `LatestSegments`, recursing on the remaining iteration count: append
the indexed segment for every visited id that is present. -/
def collectSegmentsGo (m : List (Int × Segment)) (lo : Int) : Nat → List Segment
  | 0 => []
  | k + 1 =>
    (match m.lookup lo with
     | some segment => [segment]
     | none => []) ++ collectSegmentsGo m (lo + 1) k

/-- The collection loop over ids `lo, lo+1, ..., hi` (no iteration when
`lo > hi`): the iteration count of the Go loop is `max 0 (hi + 1 - lo)`. -/
def collectSegments (m : List (Int × Segment)) (lo hi : Int) : List Segment :=
  collectSegmentsGo m lo (hi + 1 - lo).toNat

/-- `LatestSegments(count)`: `make([]Segment, 0, count)` panics for a negative
capacity (modelled as `none`); otherwise scan ids
`[lastSegmentID - count + 1, lastSegmentID]` in ascending order. -/
def LatestSegments (s : StorageState) (count : Int) : Option (List Segment) :=
  if count < 0 then none
  else some (collectSegments s.segments (s.lastSegmentID - count + 1) s.lastSegmentID)

/-- Error taxonomy of `addSegment`: every early return before the
verification step is an I/O error; the short-copy return
(`"could not copy entire file"`) is the integrity error. -/
inductive AddSegmentError
  | ioError
  | integrityError
  deriving Repr, DecidableEq

/-- The file-system outcomes `addSegment` depends on: whether `os.Open`,
`inFile.Stat` and `os.Create` succeed, the size `Stat` reports, and the
result of `io.Copy` (`some n` = copied `n` bytes without error,
`none` = copy error). -/
structure AddSegmentEnv where
  openOk : Bool
  statOk : Bool
  size : Int
  createOk : Bool
  copyResult : Option Int
  deriving Repr, DecidableEq

/-- `addSegment` (storage/implementation.go): open and stat the source,
allocate `id = lastSegmentID + 1`, build the canonical name, create and copy,
verify the copied byte count against the stat size, and only then (under the
lock) set `lastSegmentID` and insert into the index. Every failure returns
before the mutation, so the pre-call state is returned unchanged. -/
def addSegment (s : StorageState) (env : AddSegmentEnv) (created modified : Int) :
    Option AddSegmentError × StorageState :=
  if !env.openOk then (some .ioError, s)
  else if !env.statOk then (some .ioError, s)
  else
    let segmentTime := created
    let segmentDuration := modified - created
    let segmentID := s.lastSegmentID + 1
    let segmentName := segmentFileName (unixSeconds segmentTime)
      (Int.tdiv segmentDuration 1000000) segmentID
    if !env.createOk then (some .ioError, s)
    else
      match env.copyResult with
      | none => (some .ioError, s)
      | some n =>
        if n ≠ env.size then (some .integrityError, s)
        else
          (none,
           { s with
             lastSegmentID := segmentID,
             segments := (segmentID,
               { ID := segmentID, Name := segmentName, Time := segmentTime,
                 Duration := segmentDuration }) :: s.segments })

/-! ### Capture monitor (`server/recorder/implementation.go`)

The recorder supervises the `raspivid` capture subprocess, which writes raw
chunks named `segment%012d.h264` into the working directory, and a periodic
drain loop (`checkFilesLoop`) that converts finished chunks and publishes
them. External effects (process launch, `ffmpeg` runs) enter the model as
explicit oracles; the working directory is its `ReadDir` listing, a list of
file names — `ioutil.ReadDir` returns entries sorted by name, and the
fixed-width zero-padded sequence numbers make that ascending capture order. -/

/-- The handle fields of `recorderImpl` that drive the lifecycle:
whether a non-nil `context.CancelFunc` and a non-nil `*exec.Cmd` are held.
(The configuration fields are constants set in `New`; `segmentDuration` is
`5 * time.Second`, see `recorderSegmentDuration`.) -/
structure RecorderState where
  cancelFunc : Bool
  cmd : Bool
  deriving Repr, DecidableEq

/-- `segmentDuration: 5 * time.Second` from `recorder.New`, in nanoseconds. -/
def recorderSegmentDuration : Int := 5 * 1000000000

/-- `Start()` (happy path of the claims): after `deleteFiles`, launch the
capture subprocess with a cancellable context. On launch success both handle
fields are set; on failure they stay as they were and the error is returned
(`some ()` in the first component). -/
def recorderStart (r : RecorderState) (launchOk : Bool) :
    Option Unit × RecorderState :=
  if launchOk then (none, { cancelFunc := true, cmd := true })
  else (some (), r)

/-- `Stop()` (recorder/implementation.go): read both handle fields, clear
them, then invoke the saved cancel function and wait on the saved command.
Calling a nil `context.CancelFunc`, or `Wait` on a nil `*exec.Cmd`, is a Go
runtime panic, modelled as `none`; otherwise the cleared state is returned
(the error value of `cmd.Wait()` is not modelled). -/
def recorderStop (r : RecorderState) : Option RecorderState :=
  let cancelFunc := r.cancelFunc
  let cmd := r.cmd
  let cleared : RecorderState := { cancelFunc := false, cmd := false }
  if !cancelFunc then none
  else if !cmd then none
  else some cleared

/-- `strings.Replace(s, pat, rep, 1)`: replace the first occurrence of `pat`
(scanning left to right) by `rep`; unchanged if `pat` does not occur. -/
def replaceFirst (s pat rep : List Char) : List Char :=
  match s with
  | [] => []
  | c :: rest =>
    if pat.isPrefixOf (c :: rest) then rep ++ (c :: rest).drop pat.length
    else c :: replaceFirst rest pat rep

/-- `strings.HasSuffix`. -/
def hasSuffix (s pat : List Char) : Bool := pat.isSuffixOf s

/-- The converted name of a raw chunk:
`strings.Replace(name, ".h264", ".ts", 1)` in `muxFile`. -/
def tsNameOf (name : List Char) : List Char :=
  replaceFirst name ".h264".toList ".ts".toList

/-- `muxFile` (recorder/implementation.go): run `ffmpeg -i in -codec copy out`
(success decided by the `ffmpegOk` oracle; on success the converted file
appears in the directory), then `os.Remove` the input file (an error if it is
absent). Returns the converted path on success (`none` on any error) together
with the directory as the call leaves it. -/
def muxFile (ffmpegOk : List Char → Bool) (dir : List (List Char))
    (name : List Char) : Option (List Char) × List (List Char) :=
  let newName := tsNameOf name
  if !ffmpegOk name then (none, dir)
  else
    let dir1 := dir ++ [newName]
    if name ∈ dir1 then (some newName, dir1.erase name)
    else (none, dir1)

/-- The per-chunk body of `checkFiles`, over the snapshot list of chunks to
process: mux the chunk, publish the converted path to the subscribers
(`VideoRecorded`, recorded here in call order), then `os.Remove` the
converted file. An error aborts the remainder of the pass (third component
`true`), leaving later chunks for the next pass. -/
def processFiles (ffmpegOk : List Char → Bool) :
    List (List Char) → List (List Char) →
    List (List Char) × List (List Char) × Bool
  | dir, [] => (dir, [], false)
  | dir, name :: rest =>
    match muxFile ffmpegOk dir name with
    | (none, dir1) => (dir1, [], true)
    | (some filePath, dir1) =>
      if filePath ∈ dir1 then
        let dir2 := dir1.erase filePath
        let next := processFiles ffmpegOk dir2 rest
        (next.1, filePath :: next.2.1, next.2.2)
      else (dir1, [filePath], true)

/-- `checkFiles` (one drain pass): list the directory, keep the `.h264`
chunks; if fewer than two exist do nothing (the newest chunk is still being
written); otherwise process every chunk except the newest, in listing
(= ascending sequence) order. Result: the directory after the pass, the
published converted paths in order, and whether the pass aborted on an
error. -/
def checkFiles (ffmpegOk : List Char → Bool) (dir : List (List Char)) :
    List (List Char) × List (List Char) × Bool :=
  let files := dir.filter (fun n => hasSuffix n ".h264".toList)
  if files.length < 2 then (dir, [], false)
  else processFiles ffmpegOk dir files.dropLast

/-- Left-pad a digit string with zeros to width `w` (the `%012d` verb). -/
def zeroPad (w : Nat) (l : List Char) : List Char :=
  List.replicate (w - l.length) '0' ++ l

/-- A raw chunk's file name: `raspivid` is configured with the output pattern
`segment%012d.h264`, so chunk `k` is named with the fixed-width zero-padded
sequence number `k`. -/
def chunkName (k : Nat) : List Char :=
  "segment".toList ++ (zeroPad 12 (natToDigits k) ++ ".h264".toList)

/-! ### Playlist generation (`server/server.go`, `serveLivePlaylist`)

The manifest is modelled line by line; each line carries its numeric payload
rather than its rendered text (in particular the `#EXTINF:%f,` float
rendering of `duration/second` is abstracted to the nanosecond value it
renders). The `txt` flag only selects the declared content type and does not
affect the emitted lines, so it does not appear in the model. -/

/-- One emitted manifest line. -/
inductive PlaylistLine where
  | extm3u : PlaylistLine
  | targetDuration : Int → PlaylistLine
  | mediaSequence : Int → PlaylistLine
  | discontinuity : PlaylistLine
  | extinf : Int → PlaylistLine
  | segmentRef : List Char → PlaylistLine
  deriving Repr, DecidableEq

/-- The header-computation loop of `serveLivePlaylist`: one pass over the
window tracking the running maximum duration (from 0) and the first segment
id (set when the tracker still holds 0). -/
def playlistHeaderState (segments : List Segment) : Int × Int :=
  segments.foldl
    (fun p seg =>
      ((if seg.Duration > p.1 then seg.Duration else p.1),
       (if p.2 == 0 then seg.ID else p.2)))
    (0, 0)

/-- The per-segment emission loop of `serveLivePlaylist`: a discontinuity
marker when the segment's id is not the tracked previous id plus one, then
the `#EXTINF` line and the `segments/<name>` reference. -/
def playlistEntriesGo (prev : Int) : List Segment → List PlaylistLine
  | [] => []
  | seg :: rest =>
    (if seg.ID ≠ prev + 1 then [PlaylistLine.discontinuity] else []) ++
    PlaylistLine.extinf seg.Duration ::
    PlaylistLine.segmentRef ("segments/".toList ++ seg.Name) ::
    playlistEntriesGo seg.ID rest

/-- The manifest built from a segment window: `#EXTM3U`, the target duration
(the tracked maximum, truncated to whole seconds by integer division), the
media sequence (the tracked first id), then the per-segment entries with the
previous id initialized to the first id minus one. -/
def generatePlaylist (segments : List Segment) : List PlaylistLine :=
  let targetDuration := (playlistHeaderState segments).1
  let firstSegmentID := (playlistHeaderState segments).2
  PlaylistLine.extm3u ::
  PlaylistLine.targetDuration (Int.tdiv targetDuration 1000000000) ::
  PlaylistLine.mediaSequence firstSegmentID ::
  playlistEntriesGo (firstSegmentID - 1) segments

/-- `serveLivePlaylist`: request enough segments to fill 10 seconds given the
recorder's nominal segment duration (Go integer division; division by zero
would panic, modelled as `none`), with a floor of 3, then generate the
manifest from the returned window (`none` also propagates the
negative-capacity panic of `LatestSegments`, which the floor of 3 rules
out). -/
def serveLivePlaylist (store : StorageState) (segmentDurationNS : Int) :
    Option (List PlaylistLine) :=
  if segmentDurationNS = 0 then none
  else
    let numSegments0 := Int.tdiv (10 * 1000000000) segmentDurationNS
    let numSegments := if numSegments0 < 3 then 3 else numSegments0
    (LatestSegments store numSegments).map generatePlaylist

/-! ### Helper lemmas -/

theorem lookup_mem {m : List (Int × Segment)} {k : Int} {v : Segment}
    (h : m.lookup k = some v) : (k, v) ∈ m := by
  induction m with
  | nil => simp [List.lookup] at h
  | cons p rest ih =>
    obtain ⟨a, b⟩ := p
    rw [List.lookup] at h
    by_cases hk : k = a
    · subst hk
      simp at h
      subst h
      exact List.mem_cons_self _ _
    · have hne : (k == a) = false := by simp [hk]
      rw [hne] at h
      exact List.mem_cons_of_mem _ (ih h)

theorem collectSegmentsGo_nil (lo : Int) (k : Nat) :
    collectSegmentsGo [] lo k = [] := by
  induction k generalizing lo with
  | zero => rfl
  | succ k ih => simp [collectSegmentsGo, List.lookup, ih]

theorem collectSegmentsGo_length (m : List (Int × Segment)) (lo : Int)
    (k : Nat) : (collectSegmentsGo m lo k).length ≤ k := by
  induction k generalizing lo with
  | zero => simp [collectSegmentsGo]
  | succ k ih =>
    rw [collectSegmentsGo]
    cases h : m.lookup lo <;> simp only [List.length_append] <;>
      have := ih (lo + 1) <;> simp <;> omega

theorem collectSegmentsGo_mem (m : List (Int × Segment)) (lo : Int) (k : Nat)
    (x : Segment) (hx : x ∈ collectSegmentsGo m lo k) :
    ∃ id : Int, lo ≤ id ∧ id < lo + k ∧ m.lookup id = some x := by
  induction k generalizing lo with
  | zero => simp [collectSegmentsGo] at hx
  | succ k ih =>
    rw [collectSegmentsGo] at hx
    cases h : m.lookup lo <;> rw [h] at hx
    · obtain ⟨id, h1, h2, h3⟩ := ih (lo + 1) (by simpa using hx)
      exact ⟨id, by omega, by omega, h3⟩
    · simp at hx
      rcases hx with rfl | hx
      · exact ⟨lo, le_refl _, by omega, h⟩
      · obtain ⟨id, h1, h2, h3⟩ := ih (lo + 1) hx
        exact ⟨id, by omega, by omega, h3⟩

theorem collectSegmentsGo_complete (m : List (Int × Segment)) (lo : Int)
    (k : Nat) (id : Int) (seg : Segment) (h1 : lo ≤ id) (h2 : id < lo + k)
    (h3 : m.lookup id = some seg) : seg ∈ collectSegmentsGo m lo k := by
  induction k generalizing lo with
  | zero => omega
  | succ k ih =>
    rw [collectSegmentsGo]
    by_cases he : id = lo
    · subst he
      rw [h3]
      simp
    · have hrec := ih (lo + 1) (by omega) (by omega)
      cases h : m.lookup lo <;> simp only [List.mem_append]
      · simpa using hrec
      · simpa using Or.inr hrec

theorem collectSegmentsGo_chain (m : List (Int × Segment))
    (hwf : ∀ p ∈ m, p.2.ID = p.1) (lo : Int) (k : Nat) :
    (collectSegmentsGo m lo k).Chain' (fun a b => a.ID < b.ID) := by
  induction k generalizing lo with
  | zero => simp [collectSegmentsGo]
  | succ k ih =>
    rw [collectSegmentsGo]
    cases h : m.lookup lo
    · simpa using ih (lo + 1)
    case some seg =>
      rw [List.singleton_append, List.chain'_cons']
      refine ⟨?_, ih (lo + 1)⟩
      intro y hy
      have hseg : seg.ID = lo := hwf _ (lookup_mem h)
      have hy' : y ∈ collectSegmentsGo m (lo + 1) k :=
        List.mem_of_mem_head? hy
      obtain ⟨id, ha, _, hc⟩ := collectSegmentsGo_mem m (lo + 1) k y hy'
      have hyid : y.ID = id := hwf _ (lookup_mem hc)
      omega

/-- Store-state invariant: every index binding keys a segment by its own id.
Both writers maintain it: `loadSegments` inserts `segments[segment.ID] =
segment` and `addSegment` inserts `segments[segmentID]` with `ID: segmentID`. -/
def StorageWF (s : StorageState) : Prop := ∀ p ∈ s.segments, p.2.ID = p.1

/-- A concrete stored segment with the given id and duration (created at the
epoch), named by the canonical convention. -/
def demoSegment (id durationNS : Int) : Segment :=
  { ID := id, Name := segmentFileName 0 (Int.tdiv durationNS 1000000) id,
    Time := 0, Duration := durationNS }

/-- A store holding contiguous ids 1..10 (5-second segments). -/
def store10 : StorageState :=
  { segments := ([1, 2, 3, 4, 5, 6, 7, 8, 9, 10] : List Int).map
      (fun i => (i, demoSegment i 5000000000)),
    lastSegmentID := 10 }

/-! ### Claims -/

/-- C1: over an empty directory the constructed store's `lastID` is 1, not 0
(`New` stores `lastSegmentID + 1`, one past the maximum that `loadSegments`
returned), and consequently the first successful `AddSegment` on it assigns
id 2, not 1 — the claimed `lastID = max id, or 0 if none` and the assigned
ids `1..n` are both contradicted by the code at this input. -/
theorem C1_lastID_init_bug :
    (storageNew []).lastSegmentID = 1 ∧
    (addSegment (storageNew [])
      { openOk := true, statOk := true, size := 5, createOk := true,
        copyResult := some 5 } 0 5000000000).1 = none ∧
    (addSegment (storageNew [])
      { openOk := true, statOk := true, size := 5, createOk := true,
        copyResult := some 5 } 0 5000000000).2.lastSegmentID = 2 :=
  ⟨rfl, rfl, rfl⟩

/-- C2: after one successful `Start` and one `Stop` the handle fields are
cleared; the second `Stop` then reads a nil cancel function and invoking it
is a Go runtime panic (`none`), not the claimed harmless no-op. -/
theorem C2_double_stop_panics :
    (recorderStart { cancelFunc := false, cmd := false } true).2 =
      { cancelFunc := true, cmd := true } ∧
    recorderStop { cancelFunc := true, cmd := true } =
      some { cancelFunc := false, cmd := false } ∧
    recorderStop { cancelFunc := false, cmd := false } = none :=
  ⟨rfl, rfl, rfl⟩

/-- C3: whenever the copy completes with a byte count different from the
source's reported size, `addSegment` returns the integrity error and hands
back the pre-call state (both `lastID` and the index untouched); and
whenever `addSegment` succeeds, the copy byte count equalled the reported
size — the index never references a partially copied file. -/
theorem C3_integrity_rejection (s : StorageState) (env : AddSegmentEnv)
    (created modified : Int) :
    (∀ n : Int, env.openOk = true → env.statOk = true → env.createOk = true →
      env.copyResult = some n → n ≠ env.size →
      addSegment s env created modified =
        (some AddSegmentError.integrityError, s)) ∧
    ((addSegment s env created modified).1 = none →
      env.copyResult = some env.size) := by
  constructor
  · intro n ho hs hc hcp hn
    simp [addSegment, ho, hs, hc, hcp, hn]
  · intro hok
    unfold addSegment at hok
    cases ho : env.openOk <;> rw [ho] at hok
    · simp at hok
    cases hs : env.statOk <;> rw [hs] at hok
    · simp at hok
    cases hc : env.createOk <;> rw [hc] at hok
    · simp at hok
    simp only [Bool.not_true, Bool.false_eq_true, if_false] at hok
    cases hcp : env.copyResult <;> rw [hcp] at hok
    · simp at hok
    case some n =>
      by_cases hn : n = env.size
      · rw [hn]
      · simp [hn] at hok

/-- C3 witness: a copy that stops short (7 of 10 bytes) is rejected with the
integrity error and the store state is returned unchanged. -/
theorem C3_integrity_rejection_witness :
    addSegment (storageNew [])
      { openOk := true, statOk := true, size := 10, createOk := true,
        copyResult := some 7 } 0 5000000000 =
      (some AddSegmentError.integrityError, storageNew []) :=
  (C3_integrity_rejection (storageNew []) _ 0 5000000000).1 7 rfl rfl rfl rfl
    (by decide)

/-- C9: a playlist request against a store holding zero segments (with the
recorder's nominal 5-second segment duration) yields the structurally valid
manifest with target duration 0, media sequence 0 and no per-segment
entries — it cannot be an error response. -/
theorem C9_empty_store_playlist (store : StorageState)
    (h : store.segments = []) :
    serveLivePlaylist store recorderSegmentDuration =
      some [PlaylistLine.extm3u, PlaylistLine.targetDuration 0,
            PlaylistLine.mediaSequence 0] := by
  have hc : ∀ k lo, collectSegmentsGo store.segments lo k = [] := by
    intro k lo
    rw [h]
    exact collectSegmentsGo_nil lo k
  simp only [serveLivePlaylist, recorderSegmentDuration, LatestSegments,
    collectSegments, hc, generatePlaylist, playlistHeaderState,
    playlistEntriesGo]
  norm_num
  exact ⟨[], ⟨by decide, rfl⟩, rfl⟩

/-- C9 witness: the empty-store playlist at the concrete empty store. -/
theorem C9_empty_store_playlist_witness :
    serveLivePlaylist { segments := [], lastSegmentID := 0 }
        recorderSegmentDuration =
      some [PlaylistLine.extm3u, PlaylistLine.targetDuration 0,
            PlaylistLine.mediaSequence 0] :=
  C9_empty_store_playlist { segments := [], lastSegmentID := 0 } rfl

/-- C10: for every negative `count`, `LatestSegments` panics allocating the
result slice with a negative capacity (modelled as `none`) instead of
returning an empty sequence. -/
theorem C10_negative_count_panics (s : StorageState) (k : Int) (hk : k < 0) :
    LatestSegments s k = none := by
  simp [LatestSegments, hk]

/-- C10 witness: `LatestSegments(-1)` on a concrete store panics. -/
theorem C10_negative_count_panics_witness :
    LatestSegments { segments := [], lastSegmentID := 0 } (-1) = none :=
  C10_negative_count_panics { segments := [], lastSegmentID := 0 } (-1)
    (by decide)

/-- C4: for every well-formed store state and every count `k ≥ 0`,
`LatestSegments(k)` returns (without panicking) a sequence of at most `k`
segments whose ids all lie in `[lastID - k + 1, lastID]`, in strictly
ascending id order, containing every indexed segment of that range (ids
absent from the index are merely omitted); and on the store holding
contiguous ids 1..10, `LatestSegments(3)` returns ids 8, 9, 10 in that
order. The embedded query is a pure function of the state, which is the
read-only guarantee of the critical section. -/
theorem C4_latest_segments_bounded (s : StorageState) (k : Int)
    (hk : 0 ≤ k) (hwf : StorageWF s) :
    (∃ l, LatestSegments s k = some l ∧
      (l.length : Int) ≤ k ∧
      (∀ x ∈ l, s.lastSegmentID - k + 1 ≤ x.ID ∧ x.ID ≤ s.lastSegmentID) ∧
      l.Chain' (fun a b => a.ID < b.ID) ∧
      (∀ id seg, s.lastSegmentID - k + 1 ≤ id → id ≤ s.lastSegmentID →
        s.segments.lookup id = some seg → seg ∈ l)) ∧
    LatestSegments store10 3 =
      some [demoSegment 8 5000000000, demoSegment 9 5000000000,
            demoSegment 10 5000000000] := by
  constructor
  · set lo := s.lastSegmentID - k + 1 with hlo
    have hfuel : (s.lastSegmentID + 1 - lo).toNat = k.toNat := by omega
    have hcast : (k.toNat : Int) = k := Int.toNat_of_nonneg hk
    refine ⟨collectSegmentsGo s.segments lo k.toNat, ?_, ?_, ?_, ?_, ?_⟩
    · simp only [LatestSegments, collectSegments, if_neg (not_lt.mpr hk)]
      rw [hfuel]
    · calc ((collectSegmentsGo s.segments lo k.toNat).length : Int)
          ≤ (k.toNat : Int) := by
            exact_mod_cast collectSegmentsGo_length s.segments lo k.toNat
        _ = k := hcast
    · intro x hx
      obtain ⟨id, h1, h2, h3⟩ := collectSegmentsGo_mem _ _ _ _ hx
      have hxid : x.ID = id := hwf _ (lookup_mem h3)
      omega
    · exact collectSegmentsGo_chain s.segments hwf lo k.toNat
    · intro id seg h1 h2 h3
      exact collectSegmentsGo_complete s.segments lo k.toNat id seg h1
        (by omega) h3
  · decide

/-- C4 witness: the general part instantiated at the 10-segment store with
`k = 3`. -/
theorem C4_latest_segments_bounded_witness :
    (∃ l, LatestSegments store10 3 = some l ∧
      (l.length : Int) ≤ 3 ∧
      (∀ x ∈ l, store10.lastSegmentID - 3 + 1 ≤ x.ID ∧
        x.ID ≤ store10.lastSegmentID) ∧
      l.Chain' (fun a b => a.ID < b.ID) ∧
      (∀ id seg, store10.lastSegmentID - 3 + 1 ≤ id →
        id ≤ store10.lastSegmentID →
        store10.segments.lookup id = some seg → seg ∈ l)) ∧
    LatestSegments store10 3 =
      some [demoSegment 8 5000000000, demoSegment 9 5000000000,
            demoSegment 10 5000000000] :=
  C4_latest_segments_bounded store10 3 (by decide)
    (show ∀ p ∈ store10.segments, p.2.ID = p.1 by decide)

theorem playlistHeaderState_eq (segments : List Segment) (p : Int × Int) :
    segments.foldl
      (fun p seg =>
        ((if seg.Duration > p.1 then seg.Duration else p.1),
         (if p.2 == 0 then seg.ID else p.2))) p =
    (segments.foldl
       (fun a seg => if seg.Duration > a then seg.Duration else a) p.1,
     segments.foldl (fun a seg => if a == 0 then seg.ID else a) p.2) := by
  induction segments generalizing p with
  | nil => rfl
  | cons s rest ih => simp only [List.foldl_cons, ih]

theorem foldMax_le (l : List Segment) (a : Int) :
    a ≤ l.foldl (fun a seg => if seg.Duration > a then seg.Duration else a) a := by
  induction l generalizing a with
  | nil => simp
  | cons s rest ih =>
    rw [List.foldl_cons]
    by_cases h : s.Duration > a
    · simp only [if_pos h]
      exact le_trans (le_of_lt h) (ih s.Duration)
    · simp only [if_neg h]
      exact ih a

theorem foldMax_ub (l : List Segment) (a : Int) (x : Segment) (hx : x ∈ l) :
    x.Duration ≤
      l.foldl (fun a seg => if seg.Duration > a then seg.Duration else a) a := by
  induction l generalizing a with
  | nil => simp at hx
  | cons s rest ih =>
    rw [List.foldl_cons]
    rcases List.mem_cons.mp hx with rfl | hx'
    · refine le_trans ?_ (foldMax_le rest _)
      by_cases h : x.Duration > a
      · simp [if_pos h]
      · simp only [if_neg h]
        omega
    · exact ih _ hx'

theorem foldMax_attained (l : List Segment) (a : Int) :
    l.foldl (fun a seg => if seg.Duration > a then seg.Duration else a) a = a ∨
    l.foldl (fun a seg => if seg.Duration > a then seg.Duration else a) a ∈
      l.map Segment.Duration := by
  induction l generalizing a with
  | nil => exact Or.inl rfl
  | cons s rest ih =>
    rw [List.foldl_cons]
    by_cases h : s.Duration > a
    · simp only [if_pos h]
      rcases ih s.Duration with he | hm
      · exact Or.inr (by simp [he])
      · exact Or.inr (List.mem_cons_of_mem _ hm)
    · simp only [if_neg h]
      rcases ih a with he | hm
      · exact Or.inl he
      · exact Or.inr (List.mem_cons_of_mem _ hm)

theorem foldFirst_of_ne (l : List Segment) (v : Int) (hv : v ≠ 0) :
    l.foldl (fun a seg => if a == 0 then seg.ID else a) v = v := by
  induction l with
  | nil => rfl
  | cons s rest ih => simpa [List.foldl_cons, hv] using ih

theorem foldFirst_cons (s : Segment) (rest : List Segment) (h : s.ID ≠ 0) :
    (s :: rest).foldl (fun a seg => if a == 0 then seg.ID else a) 0 = s.ID := by
  rw [List.foldl_cons]
  simpa using foldFirst_of_ne rest s.ID h

/-- The per-segment block the emission loop produces for one segment, given
the id that preceded it. -/
def entryBlock (pc : Int × Segment) : List PlaylistLine :=
  (if pc.2.ID ≠ pc.1 + 1 then [PlaylistLine.discontinuity] else []) ++
  [PlaylistLine.extinf pc.2.Duration,
   PlaylistLine.segmentRef ("segments/".toList ++ pc.2.Name)]

theorem playlistEntriesGo_eq (segments : List Segment) (prev : Int) :
    playlistEntriesGo prev segments =
      ((List.zip (prev :: segments.map Segment.ID) segments).map
        entryBlock).flatten := by
  induction segments generalizing prev with
  | nil => rfl
  | cons s rest ih =>
    rw [playlistEntriesGo]
    simp only [List.map_cons, List.zip_cons_cons, List.flatten_cons, ih]
    simp [entryBlock, List.append_assoc]

/-- A store holding ids 1..10 with id 7 missing (5-second segments). -/
def store9 : StorageState :=
  { segments := ([1, 2, 3, 4, 5, 6, 8, 9, 10] : List Int).map
      (fun i => (i, demoSegment i 5000000000)),
    lastSegmentID := 10 }

/-- The window over `store9`: ids 1..10 with 7 missing, ascending. -/
def window9 : List Segment :=
  ([1, 2, 3, 4, 5, 6, 8, 9, 10] : List Int).map
    (fun i => demoSegment i 5000000000)

/-- The two manifest lines of one gap-free demo segment's entry. -/
def demoEntry (id durationNS : Int) : List PlaylistLine :=
  [PlaylistLine.extinf durationNS,
   PlaylistLine.segmentRef ("segments/".toList ++ (demoSegment id durationNS).Name)]

/-- C5: the generated manifest is the header followed by one block per
segment, where the block carries a discontinuity marker immediately before
the segment's entry exactly when the segment's id differs from the previous
id plus one (the previous ids being `firstID - 1` followed by the window's
own ids); and on the window obtained from ids 1..10 with 7 missing the
manifest contains exactly one discontinuity marker, placed immediately
before segment 8's entry. -/
theorem C5_gap_discontinuity :
    (∀ segments : List Segment,
      generatePlaylist segments =
        PlaylistLine.extm3u ::
        PlaylistLine.targetDuration
          (Int.tdiv (playlistHeaderState segments).1 1000000000) ::
        PlaylistLine.mediaSequence (playlistHeaderState segments).2 ::
        ((List.zip (((playlistHeaderState segments).2 - 1) ::
            segments.map Segment.ID) segments).map entryBlock).flatten) ∧
    LatestSegments store9 10 = some window9 ∧
    generatePlaylist window9 =
      [PlaylistLine.extm3u, PlaylistLine.targetDuration 5,
       PlaylistLine.mediaSequence 1] ++
      demoEntry 1 5000000000 ++ demoEntry 2 5000000000 ++
      demoEntry 3 5000000000 ++ demoEntry 4 5000000000 ++
      demoEntry 5 5000000000 ++ demoEntry 6 5000000000 ++
      [PlaylistLine.discontinuity] ++ demoEntry 8 5000000000 ++
      demoEntry 9 5000000000 ++ demoEntry 10 5000000000 ∧
    (generatePlaylist window9).count PlaylistLine.discontinuity = 1 := by
  refine ⟨?_, by decide, by decide, by decide⟩
  intro segments
  simp only [generatePlaylist]
  rw [playlistEntriesGo_eq]

/-- The three-segment window of the playlist scenario: durations 5.0 s,
5.2 s, 4.9 s with ids 101, 102, 103. -/
def demo3 : List Segment :=
  [demoSegment 101 5000000000, demoSegment 102 5200000000,
   demoSegment 103 4900000000]

/-- C7: for every non-empty window of the data model (non-negative durations,
nonzero first id), the emitted target duration is the maximum duration in the
window truncated to whole seconds by integer division and the media sequence
is the first segment's id; and the concrete three-segment window yields
`#EXT-X-TARGETDURATION:5`, `#EXT-X-MEDIA-SEQUENCE:101` and three `#EXTINF`
entries with no discontinuity marker. -/
theorem C7_header_values (s0 : Segment) (rest : List Segment)
    (hd : ∀ x ∈ s0 :: rest, 0 ≤ x.Duration) (hid : s0.ID ≠ 0) :
    (∃ M, M ∈ (s0 :: rest).map Segment.Duration ∧
      (∀ d ∈ (s0 :: rest).map Segment.Duration, d ≤ M) ∧
      generatePlaylist (s0 :: rest) =
        PlaylistLine.extm3u ::
        PlaylistLine.targetDuration (Int.tdiv M 1000000000) ::
        PlaylistLine.mediaSequence s0.ID ::
        playlistEntriesGo (s0.ID - 1) (s0 :: rest)) ∧
    generatePlaylist demo3 =
      [PlaylistLine.extm3u, PlaylistLine.targetDuration 5,
       PlaylistLine.mediaSequence 101] ++
      demoEntry 101 5000000000 ++ demoEntry 102 5200000000 ++
      demoEntry 103 4900000000 := by
  constructor
  · set M := (s0 :: rest).foldl
      (fun a seg => if seg.Duration > a then seg.Duration else a) 0 with hM
    have hsnd : (playlistHeaderState (s0 :: rest)).2 = s0.ID := by
      rw [playlistHeaderState, playlistHeaderState_eq]
      exact foldFirst_cons s0 rest hid
    have hfst : (playlistHeaderState (s0 :: rest)).1 = M := by
      rw [playlistHeaderState, playlistHeaderState_eq]
    refine ⟨M, ?_, ?_, ?_⟩
    · rcases foldMax_attained (s0 :: rest) 0 with he | hm
      · have h1 : s0.Duration ≤ M := foldMax_ub _ 0 s0 (List.mem_cons_self _ _)
        have h2 : 0 ≤ s0.Duration := hd s0 (List.mem_cons_self _ _)
        have h3 : s0.Duration = M := by omega
        rw [← h3]
        exact List.mem_map_of_mem _ (List.mem_cons_self _ _)
      · exact hm
    · intro d hdm
      obtain ⟨x, hx, rfl⟩ := List.mem_map.mp hdm
      exact foldMax_ub _ 0 x hx
    · simp only [generatePlaylist, hfst, hsnd]
  · decide

/-- C7 witness: the general part instantiated at the concrete three-segment
window. -/
theorem C7_header_values_witness :
    (∃ M, M ∈ demo3.map Segment.Duration ∧
      (∀ d ∈ demo3.map Segment.Duration, d ≤ M) ∧
      generatePlaylist demo3 =
        PlaylistLine.extm3u ::
        PlaylistLine.targetDuration (Int.tdiv M 1000000000) ::
        PlaylistLine.mediaSequence (demoSegment 101 5000000000).ID ::
        playlistEntriesGo ((demoSegment 101 5000000000).ID - 1) demo3) ∧
    generatePlaylist demo3 =
      [PlaylistLine.extm3u, PlaylistLine.targetDuration 5,
       PlaylistLine.mediaSequence 101] ++
      demoEntry 101 5000000000 ++ demoEntry 102 5200000000 ++
      demoEntry 103 4900000000 :=
  C7_header_values (demoSegment 101 5000000000)
    [demoSegment 102 5200000000, demoSegment 103 4900000000]
    (by decide) (by decide)

theorem digitChar_isDigit (d : Nat) : isDigitChar (digitChar d) = true := by
  rcases d with _ | _ | _ | _ | _ | _ | _ | _ | _ | d <;> rfl

theorem digitChar_toNat (d : Nat) (h : d < 10) :
    (digitChar d).toNat = 48 + d := by
  interval_cases d <;> rfl

theorem natToDigitsGo_ne_nil (fuel n : Nat) (h : n < fuel) :
    natToDigitsGo fuel n ≠ [] := by
  cases fuel with
  | zero => omega
  | succ fuel =>
    rw [natToDigitsGo]
    by_cases h10 : n < 10 <;> simp [h10]

theorem natToDigitsGo_digits (fuel n : Nat) (h : n < fuel) :
    ∀ c ∈ natToDigitsGo fuel n, isDigitChar c = true := by
  induction fuel generalizing n with
  | zero => omega
  | succ fuel ih =>
    rw [natToDigitsGo]
    by_cases h10 : n < 10
    · simp [h10, digitChar_isDigit]
    · have hdiv : n / 10 < n := Nat.div_lt_self (by omega) (by omega)
      simp only [if_neg h10, List.mem_append]
      intro c hc
      rcases hc with hc | hc
      · exact ih (n / 10) (by omega) c hc
      · simp at hc
        subst hc
        exact digitChar_isDigit _

theorem digitsValAux_natToDigitsGo (fuel : Nat) :
    ∀ n a : Nat, n < fuel →
      digitsValAux a (natToDigitsGo fuel n) =
        a * 10 ^ (natToDigitsGo fuel n).length + n := by
  induction fuel with
  | zero => omega
  | succ fuel ih =>
    intro n a h
    rw [natToDigitsGo]
    by_cases h10 : n < 10
    · simp only [if_pos h10]
      show digitsValAux a [digitChar n] = a * 10 ^ ([digitChar n]).length + n
      simp [digitsValAux, digitChar_toNat n h10]
    · have hdiv : n / 10 < n := Nat.div_lt_self (by omega) (by omega)
      have hx := ih (n / 10) a (by omega)
      simp only [if_neg h10]
      have hsplit : digitsValAux a
          (natToDigitsGo fuel (n / 10) ++ [digitChar (n % 10)]) =
          digitsValAux a (natToDigitsGo fuel (n / 10)) * 10 + n % 10 := by
        simp [digitsValAux, List.foldl_append,
          digitChar_toNat (n % 10) (by omega)]
      rw [hsplit, hx, List.length_append]
      have hmod : n / 10 * 10 + n % 10 = n := by omega
      set L := (natToDigitsGo fuel (n / 10)).length with hL
      simp only [List.length_cons, List.length_nil, Nat.zero_add]
      calc (a * 10 ^ L + n / 10) * 10 + n % 10
          = a * (10 ^ L * 10) + (n / 10 * 10 + n % 10) := by ring
        _ = a * 10 ^ (L + 1) + n := by rw [hmod, pow_succ]

theorem digitsVal_natToDigits (n : Nat) : digitsVal (natToDigits n) = n := by
  have h := digitsValAux_natToDigitsGo (n + 1) n 0 (by omega)
  simpa [digitsVal, natToDigits] using h

theorem natToDigits_ne_nil (n : Nat) : natToDigits n ≠ [] :=
  natToDigitsGo_ne_nil (n + 1) n (by omega)

theorem natToDigits_digits (n : Nat) :
    ∀ c ∈ natToDigits n, isDigitChar c = true :=
  natToDigitsGo_digits (n + 1) n (by omega)

theorem atoi_digit_list (l : List Char) (hne : l ≠ [])
    (hd : ∀ c ∈ l, isDigitChar c = true) :
    atoi l = some ((digitsVal l : Nat) : Int) := by
  cases l with
  | nil => exact absurd rfl hne
  | cons c rest =>
    have hc : isDigitChar c = true := hd c (List.mem_cons_self _ _)
    have hc1 : ¬c = '-' := by
      intro he
      subst he
      exact absurd hc (by decide)
    have hc2 : ¬c = '+' := by
      intro he
      subst he
      exact absurd hc (by decide)
    have hall : (c :: rest).all isDigitChar = true := List.all_eq_true.mpr hd
    simp [atoi, hc1, hc2, hall]

theorem atoi_natToDigits (n : Nat) : atoi (natToDigits n) = some (n : Int) := by
  rw [atoi_digit_list (natToDigits n) (natToDigits_ne_nil n)
    (natToDigits_digits n), digitsVal_natToDigits]

theorem digit_ne_char {c : Char} (x : Char) (hc : isDigitChar c = true)
    (hx : isDigitChar x = false) : ¬(c == x) = true := by
  intro hb
  have he := eq_of_beq hb
  rw [he] at hc
  rw [hc] at hx
  exact Bool.noConfusion hx

theorem intToChars_natCast (n : Nat) : intToChars (n : Int) = natToDigits n := by
  rw [intToChars, if_neg (by omega : ¬((n : Int) < 0))]
  simp

theorem segmentFileName_parts (t d i : Nat) :
    (((segmentFileName (t : Int) (d : Int) (i : Int)).splitOn '.').headD
      []).splitOn '_' =
      ["segment".toList, natToDigits t, natToDigits d, natToDigits i] := by
  set T := natToDigits t with hT
  set D := natToDigits d with hD
  set I := natToDigits i with hI
  have hname : segmentFileName (t : Int) (d : Int) (i : Int) =
      ("segment".toList ++ '_' :: (T ++ '_' :: (D ++ '_' :: I))) ++
        '.' :: "ts".toList := by
    rw [segmentFileName, intToChars_natCast, intToChars_natCast,
      intToChars_natCast]
    have h1 : "segment_".toList = "segment".toList ++ ['_'] := by decide
    have h2 : "_".toList = ['_'] := by decide
    have h3 : ".ts".toList = '.' :: "ts".toList := by decide
    rw [h1, h2, h3]
    simp [List.append_assoc]
  have hdig : ∀ x : Char, isDigitChar x = true → ∀ y : Char,
      isDigitChar y = false → ¬(x == y) = true :=
    fun x hx y hy => digit_ne_char y hx hy
  have hsegdot : ∀ y ∈ "segment".toList, ¬(y == '.') = true := by decide
  have hdot : ∀ x ∈ "segment".toList ++ '_' :: (T ++ '_' :: (D ++ '_' :: I)),
      ¬(x == '.') = true := by
    intro x hx
    rcases List.mem_append.mp hx with hx | hx
    · exact hsegdot x hx
    · rcases List.mem_cons.mp hx with rfl | hx
      · decide
      · rcases List.mem_append.mp hx with hx | hx
        · exact hdig x (natToDigits_digits t x hx) '.' (by decide)
        · rcases List.mem_cons.mp hx with rfl | hx
          · decide
          · rcases List.mem_append.mp hx with hx | hx
            · exact hdig x (natToDigits_digits d x hx) '.' (by decide)
            · rcases List.mem_cons.mp hx with rfl | hx
              · decide
              · exact hdig x (natToDigits_digits i x hx) '.' (by decide)
  have hsplit1 : (("segment".toList ++ '_' :: (T ++ '_' :: (D ++ '_' :: I))) ++
      '.' :: "ts".toList).splitOn '.' =
      ("segment".toList ++ '_' :: (T ++ '_' :: (D ++ '_' :: I))) ::
        ("ts".toList.splitOn '.') := by
    simp only [List.splitOn]
    exact List.splitOnP_first _ _ hdot '.' (by decide) _
  have hsegus : ∀ y ∈ "segment".toList, ¬(y == '_') = true := by decide
  have hTus : ∀ y ∈ T, ¬(y == '_') = true :=
    fun c hc => hdig c (natToDigits_digits t c hc) '_' (by decide)
  have hDus : ∀ y ∈ D, ¬(y == '_') = true :=
    fun c hc => hdig c (natToDigits_digits d c hc) '_' (by decide)
  have hIus : ∀ y ∈ I, ¬(y == '_') = true :=
    fun c hc => hdig c (natToDigits_digits i c hc) '_' (by decide)
  have hsplit2 : ("segment".toList ++
      '_' :: (T ++ '_' :: (D ++ '_' :: I))).splitOn '_' =
      "segment".toList :: (T ++ '_' :: (D ++ '_' :: I)).splitOn '_' := by
    simp only [List.splitOn]
    exact List.splitOnP_first _ _ hsegus '_' (by decide) _
  have hsplit3 : (T ++ '_' :: (D ++ '_' :: I)).splitOn '_' =
      T :: (D ++ '_' :: I).splitOn '_' := by
    simp only [List.splitOn]
    exact List.splitOnP_first _ _ hTus '_' (by decide) _
  have hsplit4 : (D ++ '_' :: I).splitOn '_' = D :: I.splitOn '_' := by
    simp only [List.splitOn]
    exact List.splitOnP_first _ _ hDus '_' (by decide) _
  have hsplit5 : I.splitOn '_' = [I] := by
    simp only [List.splitOn]
    exact List.splitOnP_eq_single _ _ hIus
  rw [hname, hsplit1, List.headD_cons, hsplit2, hsplit3, hsplit4, hsplit5]

/-- C6: building the canonical segment file name from a non-negative triple
(creation seconds, duration milliseconds, id) and parsing it back recovers
exactly the original triple: the parsed segment carries the id, the creation
instant `timeUnix t` (whose `Unix()` is `t` again) and the duration
`d` milliseconds (recovered exactly by the millisecond division). -/
theorem C6_name_roundtrip (t d i : Nat) :
    segmentFromFileName (segmentFileName (t : Int) (d : Int) (i : Int)) =
      some { ID := (i : Int),
             Name := segmentFileName (t : Int) (d : Int) (i : Int),
             Time := timeUnix (t : Int),
             Duration := (d : Int) * 1000000 } ∧
    unixSeconds (timeUnix (t : Int)) = (t : Int) ∧
    Int.tdiv ((d : Int) * 1000000) 1000000 = (d : Int) := by
  refine ⟨?_, ?_, ?_⟩
  · rw [segmentFromFileName, segmentFileName_parts t d i]
    simp [atoi_natToDigits]
  · exact Int.mul_fdiv_cancel _ (by norm_num)
  · exact Int.mul_tdiv_cancel _ (by norm_num)

theorem digitsValAux_replicate_zero (m : Nat) :
    digitsValAux 0 (List.replicate m '0') = 0 := by
  induction m with
  | zero => rfl
  | succ m ih =>
    rw [List.replicate_succ]
    show digitsValAux (0 * 10 + ('0'.toNat - 48)) (List.replicate m '0') = 0
    have h0 : 0 * 10 + ('0'.toNat - 48) = 0 := by decide
    rw [h0]
    exact ih

theorem digitsVal_zeroPad (w : Nat) (l : List Char) :
    digitsVal (zeroPad w l) = digitsVal l := by
  show digitsValAux 0 (List.replicate (w - l.length) '0' ++ l) = digitsVal l
  rw [digitsValAux, List.foldl_append]
  show digitsValAux (digitsValAux 0 (List.replicate (w - l.length) '0')) l =
    digitsVal l
  rw [digitsValAux_replicate_zero]
  rfl

theorem chunkName_inj (k k' : Nat) (h : chunkName k = chunkName k') :
    k = k' := by
  rw [chunkName, chunkName] at h
  have h1 := List.append_cancel_left h
  have h2 := List.append_cancel_right h1
  have h3 := congrArg digitsVal h2
  rwa [digitsVal_zeroPad, digitsVal_zeroPad, digitsVal_natToDigits,
    digitsVal_natToDigits] at h3

theorem hasSuffix_append (s pat : List Char) :
    hasSuffix (s ++ pat) pat = true := by
  rw [hasSuffix, List.isSuffixOf_iff_suffix]
  exact List.suffix_append s pat

theorem chunkName_h264 (k : Nat) :
    hasSuffix (chunkName k) ".h264".toList = true := by
  rw [chunkName, ← List.append_assoc]
  exact hasSuffix_append _ _

theorem tsNameOf_of_no_dot (pre : List Char)
    (hpre : ∀ c ∈ pre, ¬c = '.') :
    tsNameOf (pre ++ ".h264".toList) = pre ++ ".ts".toList := by
  induction pre with
  | nil => decide
  | cons c pre ih =>
    have hne : ('.' == c) = false :=
      beq_eq_false_iff_ne.mpr
        (fun he => hpre c (List.mem_cons_self _ _) he.symm)
    have hpref : ".h264".toList.isPrefixOf
        (c :: (pre ++ ".h264".toList)) = false := by
      show ('.' == c && ("h264".toList.isPrefixOf (pre ++ ".h264".toList)))
        = false
      rw [hne, Bool.false_and]
    show replaceFirst (c :: (pre ++ ".h264".toList)) ".h264".toList
      ".ts".toList = c :: (pre ++ ".ts".toList)
    rw [replaceFirst]
    simp only [hpref, Bool.false_eq_true, if_false]
    exact congrArg (c :: ·) (ih fun x hx => hpre x (List.mem_cons_of_mem _ hx))

theorem tsNameOf_chunkName (k : Nat) :
    tsNameOf (chunkName k) =
      "segment".toList ++ (zeroPad 12 (natToDigits k) ++ ".ts".toList) := by
  have hnd : ∀ c ∈ "segment".toList ++ zeroPad 12 (natToDigits k),
      ¬c = '.' := by
    intro c hc
    rcases List.mem_append.mp hc with hc | hc
    · have hs : ∀ y ∈ "segment".toList, ¬y = '.' := by decide
      exact hs c hc
    · rw [zeroPad] at hc
      rcases List.mem_append.mp hc with hc | hc
      · rw [List.eq_of_mem_replicate hc]
        decide
      · intro he
        subst he
        exact absurd (natToDigits_digits k '.' hc) (by decide)
  have hres := tsNameOf_of_no_dot _ hnd
  rw [List.append_assoc] at hres
  rw [chunkName, ← List.append_assoc, ← List.append_assoc] at *
  exact hres

theorem tsName_getLast (k : Nat) :
    (tsNameOf (chunkName k)).getLast? = some 's' := by
  rw [tsNameOf_chunkName, List.getLast?_append, List.getLast?_append]
  rfl

theorem chunkName_getLast (k : Nat) :
    (chunkName k).getLast? = some '4' := by
  rw [chunkName, List.getLast?_append, List.getLast?_append]
  rfl

theorem tsName_ne_chunkName (k k' : Nat) :
    tsNameOf (chunkName k) ≠ chunkName k' := by
  intro h
  have h1 := tsName_getLast k
  rw [h, chunkName_getLast k'] at h1
  exact absurd h1 (by decide)

theorem processFiles_spec (ffmpegOk : List Char → Bool)
    (files : List (List Char)) :
    ∀ dir : List (List Char),
    (∀ f ∈ files, ffmpegOk f = true) →
    (∀ f ∈ files, f ∈ dir) →
    files.Nodup →
    (∀ f ∈ files, tsNameOf f ∉ dir) →
    processFiles ffmpegOk dir files =
      (files.foldl List.erase dir, files.map tsNameOf, false) := by
  induction files with
  | nil =>
    intro dir _ _ _ _
    rfl
  | cons f rest ih =>
    intro dir hffm hmem hnd hts
    have hf : ffmpegOk f = true := hffm f (List.mem_cons_self _ _)
    have hfd : f ∈ dir := hmem f (List.mem_cons_self _ _)
    have htsf : tsNameOf f ∉ dir := hts f (List.mem_cons_self _ _)
    have hmux : muxFile ffmpegOk dir f =
        (some (tsNameOf f), dir.erase f ++ [tsNameOf f]) := by
      rw [muxFile, hf]
      simp only [Bool.not_true, Bool.false_eq_true, if_false]
      rw [if_pos (List.mem_append_left _ hfd), List.erase_append_left _ hfd]
    have hout : tsNameOf f ∈ dir.erase f ++ [tsNameOf f] :=
      List.mem_append_right _ (List.mem_cons_self _ _)
    have htsdir : tsNameOf f ∉ dir.erase f :=
      fun hc => htsf (List.mem_of_mem_erase hc)
    have herase : (dir.erase f ++ [tsNameOf f]).erase (tsNameOf f) =
        dir.erase f := by
      rw [List.erase_append_right _ htsdir, List.erase_cons_head,
        List.append_nil]
    have hfnr : f ∉ rest := (List.nodup_cons.mp hnd).1
    have hrec := ih (dir.erase f)
      (fun g hg => hffm g (List.mem_cons_of_mem _ hg))
      (fun g hg => (List.mem_erase_of_ne
        (fun he : g = f => hfnr (by rw [← he]; exact hg))).mpr
        (hmem g (List.mem_cons_of_mem _ hg)))
      hnd.of_cons
      (fun g hg hc => hts g (List.mem_cons_of_mem _ hg)
        (List.mem_of_mem_erase hc))
    rw [processFiles, hmux]
    simp only [if_pos hout, herase, hrec, List.foldl_cons, List.map_cons]

theorem dropLast_foldl_erase (l : List (List Char)) :
    l.dropLast.foldl List.erase l = l.drop (l.length - 1) := by
  induction l with
  | nil => rfl
  | cons x rest ih =>
    cases rest with
    | nil => rfl
    | cons y rest' =>
      rw [List.dropLast_cons₂, List.foldl_cons, List.erase_cons_head, ih]
      show List.drop ((y :: rest').length - 1) (y :: rest') =
        List.drop ((x :: y :: rest').length - 1) (x :: y :: rest')
      simp only [List.length_cons]
      rw [show rest'.length + 1 + 1 - 1 = rest'.length + 1 by omega,
        List.drop_succ_cons,
        show rest'.length + 1 - 1 = rest'.length by omega]

/-- C8: a drain pass over a directory whose listing holds fewer than two raw
chunks converts and deletes nothing; over a listing of raw chunks in
ascending sequence order (all conversions succeeding) it converts and
publishes every chunk except the newest, in ascending order, removes both
the raw chunk and the converted intermediate of every published chunk, and
leaves exactly the newest chunk present; concretely, for chunks 0, 1, 2 it
publishes the conversions of 0 and 1 and leaves only chunk 2 on disk. -/
theorem C8_drain_pass (ks : List Nat) (hsort : ks.Chain' (· < ·))
    (hlen : 2 ≤ ks.length) :
    (∀ (ffmpegOk : List Char → Bool) (dir : List (List Char)),
      (dir.filter (fun n => hasSuffix n ".h264".toList)).length < 2 →
      checkFiles ffmpegOk dir = (dir, [], false)) ∧
    checkFiles (fun _ => true) (ks.map chunkName) =
      ((ks.map chunkName).drop (ks.length - 1),
       ks.dropLast.map (fun k => tsNameOf (chunkName k)), false) ∧
    checkFiles (fun _ => true) [chunkName 0, chunkName 1, chunkName 2] =
      ([chunkName 2], [tsNameOf (chunkName 0), tsNameOf (chunkName 1)],
       false) := by
  refine ⟨?_, ?_, by decide⟩
  · intro ffmpegOk dir h
    show (if (dir.filter (fun n => hasSuffix n ".h264".toList)).length < 2
        then (dir, ([] : List (List Char)), false)
        else processFiles ffmpegOk dir
          ((dir.filter (fun n => hasSuffix n ".h264".toList)).dropLast)) =
      (dir, [], false)
    rw [if_pos h]
  · have hp : ks.Pairwise (· < ·) := List.chain'_iff_pairwise.mp hsort
    have hknd : ks.Nodup := hp.imp Nat.ne_of_lt
    have hnodup : (ks.map chunkName).Nodup :=
      List.Nodup.map (fun a b hab => chunkName_inj a b hab) hknd
    have hall : ∀ f ∈ ks.map chunkName,
        (fun n => hasSuffix n ".h264".toList) f = true := by
      intro f hf
      obtain ⟨k, _, rfl⟩ := List.mem_map.mp hf
      exact chunkName_h264 k
    have hfilter : (ks.map chunkName).filter
        (fun n => hasSuffix n ".h264".toList) = ks.map chunkName :=
      List.filter_eq_self.mpr hall
    have hlen2 : ¬((ks.map chunkName).length < 2) := by
      rw [List.length_map]
      omega
    have hts : ∀ f ∈ (ks.map chunkName).dropLast,
        tsNameOf f ∉ ks.map chunkName := by
      intro f hf hmem
      obtain ⟨k, _, rfl⟩ :=
        List.mem_map.mp ((List.dropLast_sublist _).subset hf)
      obtain ⟨k', _, hk'⟩ := List.mem_map.mp hmem
      exact tsName_ne_chunkName k k' hk'.symm
    have hspec := processFiles_spec (fun _ => true)
      (ks.map chunkName).dropLast (ks.map chunkName)
      (fun f _ => rfl)
      (fun f hf => (List.dropLast_sublist _).subset hf)
      (hnodup.sublist (List.dropLast_sublist _))
      hts
    show (if ((ks.map chunkName).filter
          (fun n => hasSuffix n ".h264".toList)).length < 2
        then (ks.map chunkName, ([] : List (List Char)), false)
        else processFiles (fun _ => true) (ks.map chunkName)
          (((ks.map chunkName).filter
            (fun n => hasSuffix n ".h264".toList)).dropLast)) = _
    rw [hfilter, if_neg hlen2, hspec, dropLast_foldl_erase, List.length_map,
      ← List.map_dropLast, List.map_map]
    rfl

/-- C8 witness: the drain-pass theorem instantiated at the chunk sequence
0, 1, 2. -/
theorem C8_drain_pass_witness :
    (∀ (ffmpegOk : List Char → Bool) (dir : List (List Char)),
      (dir.filter (fun n => hasSuffix n ".h264".toList)).length < 2 →
      checkFiles ffmpegOk dir = (dir, [], false)) ∧
    checkFiles (fun _ => true) (([0, 1, 2] : List Nat).map chunkName) =
      ((([0, 1, 2] : List Nat).map chunkName).drop
        (([0, 1, 2] : List Nat).length - 1),
       ([0, 1, 2] : List Nat).dropLast.map
         (fun k => tsNameOf (chunkName k)), false) ∧
    checkFiles (fun _ => true) [chunkName 0, chunkName 1, chunkName 2] =
      ([chunkName 2], [tsNameOf (chunkName 0), tsNameOf (chunkName 1)],
       false) :=
  C8_drain_pass [0, 1, 2]
    (List.chain'_cons.mpr ⟨by decide,
      List.chain'_cons.mpr ⟨by decide, List.chain'_singleton 2⟩⟩)
    (by decide)

/-- C6 witness: the round trip at the concrete triple (100 s, 5200 ms,
id 3). -/
theorem C6_name_roundtrip_witness :
    segmentFromFileName (segmentFileName ((100 : Nat) : Int)
        ((5200 : Nat) : Int) ((3 : Nat) : Int)) =
      some { ID := ((3 : Nat) : Int),
             Name := segmentFileName ((100 : Nat) : Int) ((5200 : Nat) : Int)
               ((3 : Nat) : Int),
             Time := timeUnix ((100 : Nat) : Int),
             Duration := ((5200 : Nat) : Int) * 1000000 } ∧
    unixSeconds (timeUnix ((100 : Nat) : Int)) = ((100 : Nat) : Int) ∧
    Int.tdiv (((5200 : Nat) : Int) * 1000000) 1000000 =
      ((5200 : Nat) : Int) :=
  C6_name_roundtrip 100 5200 3

end PiCameraGo
